import Mathlib

/-!
Verification development for the book-sales analysis pipeline
(`src/etl.py`, `src/analysis.py`, `pipeline.py`).

Strings are modelled as Lean `String`s processed at the `List Char` level;
Python floats are modelled as exact rationals (`ℚ`), with `round(·, 2)` and
numpy/pandas rounding modelled as round-half-to-even on the exact decimal
value.  Fallible operations (Python exceptions, unparsable cells) are
modelled with `Option`.
-/

/-- Whitespace characters recognised by Python's `str.strip()` (ASCII range). -/
def pyIsSpace (c : Char) : Bool :=
  c = ' ' ∨ c = '\t' ∨ c = '\n' ∨ c = '\r' ∨ c = '\x0b' ∨ c = '\x0c'

/-- `str.strip()` on a character list: drop whitespace at both ends. -/
def stripList (l : List Char) : List Char :=
  ((l.dropWhile pyIsSpace).reverse.dropWhile pyIsSpace).reverse

/-- `str.lower()` for a single character (ASCII case folding, as used by the
price/currency code on ASCII data). -/
def pyToLower (c : Char) : Char :=
  if 'A' ≤ c ∧ c ≤ 'Z' then Char.ofNat (c.toNat + 32) else c

/-- Characters kept by the spec's price-cleaning description:
digits, comma, period, minus. -/
def keepChar (c : Char) : Bool :=
  c.isDigit ∨ c = ',' ∨ c = '.' ∨ c = '-'

/-- Characters surviving the code's final `re.sub(r"[^0-9.\-]", "", raw)`. -/
def keepNum (c : Char) : Bool :=
  c.isDigit ∨ c = '.' ∨ c = '-'

/-- `raw.replace(",", ".")` applied characterwise. -/
def commaToDot (c : Char) : Char :=
  if c = ',' then '.' else c

/-- Not a currency symbol: survives `re.sub(r"[€$]", "", raw)`. -/
def notCurrencySym (c : Char) : Bool :=
  ¬ (c = '€' ∨ c = '$')

/-- `raw.rstrip(".")`: remove trailing periods. -/
def rstripDots (l : List Char) : List Char :=
  (l.reverse.dropWhile (fun c => c = '.')).reverse

/-- Scanner for `re.findall(r"\d+", raw)`: `acc` holds the digits of the run
in progress, in reverse (`[]` when no run is open — digit runs are never
empty, so this is unambiguous). -/
def digitGroupsAux : List Char → List Char → List (List Char)
  | acc, [] => if acc = [] then [] else [acc.reverse]
  | acc, c :: rest =>
    if c.isDigit then digitGroupsAux (c :: acc) rest
    else if acc = [] then digitGroupsAux [] rest
    else acc.reverse :: digitGroupsAux [] rest

/-- Maximal runs of digits, i.e. `re.findall(r"\d+", raw)`. -/
def digitGroups (l : List Char) : List (List Char) :=
  digitGroupsAux [] l

/-- Numeric value of a digit run, most significant digit first. -/
def digitsVal (l : List Char) : ℕ :=
  l.foldl (fun a c => a * 10 + (c.toNat - 48)) 0

/-- The result of a successful Python `float()` parse, kept in decidable form:
sign, integer-part digits, fractional-part digits. -/
def PFloat : Type := Bool × List Char × List Char

instance : DecidableEq PFloat :=
  inferInstanceAs (DecidableEq (Bool × List Char × List Char))

/-- Python `float()` on an unsigned mantissa made of digits and at most one
period (the only shapes reaching it in `clean_prices` after the character
filter): `"12"`, `"12."`, `".5"`, `"1.5"` parse, everything else raises
(modelled as `none`).  Returns the digit lists of the two parts. -/
def parseMantissa (l : List Char) : Option (List Char × List Char) :=
  if (∀ c ∈ l, c.isDigit = true ∨ c = '.') ∧ l.count '.' ≤ 1 ∧ (∃ c ∈ l, c.isDigit = true) then
    some (l.takeWhile Char.isDigit, (l.dropWhile Char.isDigit).drop 1)
  else none

/-- Python `float()` on strings over the alphabet `[0-9.\-]`:
an optional leading minus sign, then a mantissa. -/
def pyFloatD (l : List Char) : Option PFloat :=
  match l with
  | [] => none
  | c :: rest =>
    if c = '-' then (parseMantissa rest).map (fun p => ((true, p) : PFloat))
    else (parseMantissa (c :: rest)).map (fun p => ((false, p) : PFloat))

/-- The rational value of a parsed float: `±(int).(frac)`. -/
def mantissaVal (p : PFloat) : ℚ :=
  let v := (digitsVal p.2.1 : ℚ) + (digitsVal p.2.2 : ℚ) / 10 ^ p.2.2.length
  if p.1 then -v else v

/-- Python `float()` as a rational. -/
def pyFloat (l : List Char) : Option ℚ :=
  (pyFloatD l).map mantissaVal

/-- Round-half-to-even to an integer (the rounding used by `numpy`/`pandas`
`round` and by Python's string formatting), on the exact rational value. -/
def rhe (q : ℚ) : ℤ :=
  if q - ⌊q⌋ < 1 / 2 then ⌊q⌋
  else if 1 / 2 < q - ⌊q⌋ then ⌊q⌋ + 1
  else if ⌊q⌋ % 2 = 0 then ⌊q⌋ else ⌊q⌋ + 1

/-- `round(q, 2)` / `Series.round(2)` on the exact rational value. -/
def round2 (q : ℚ) : ℚ :=
  (rhe (q * 100) : ℚ) / 100

/-- The fixed EUR→USD conversion rate from `etl.py`. -/
def EUR_TO_USD : ℚ := 1.2

/-- Is `a b c` a case-insensitive occurrence of `USD` or `EUR`? -/
def isCurrencyWord (a b c : Char) : Bool :=
  (pyToLower a = 'u' ∧ pyToLower b = 's' ∧ pyToLower c = 'd') ∨
  (pyToLower a = 'e' ∧ pyToLower b = 'u' ∧ pyToLower c = 'r')

/-- Regex word characters, for the `\b` boundaries in `\bUSD\b|\bEUR\b`. -/
def isWordChar (c : Char) : Bool :=
  c.isAlpha ∨ c.isDigit ∨ c = '_'

/-- Left boundary check for `\b`: the previous character (if any) is not a
word character. -/
def prevBoundary : Option Char → Bool
  | none => true
  | some p => ¬ isWordChar p

/-- Right boundary check for `\b`: the following character (if any) is not a
word character. -/
def nextBoundary : List Char → Bool
  | [] => true
  | r :: _ => ¬ isWordChar r

/-- `re.sub(r"\bUSD\b|\bEUR\b", "", raw, flags=re.IGNORECASE)`: scan left to
right, removing three-letter currency words at word boundaries.  The second
argument is the character preceding the scan position, for the left `\b`.
The fuel argument (instantiated with the list length, which strictly
decreases at every step) only makes the recursion structural. -/
def removeWordsFuel : ℕ → Option Char → List Char → List Char
  | _, _, [] => []
  | 0, _, l => l
  | fuel + 1, prev, a :: rest =>
    match rest with
    | b :: c :: rest2 =>
      if isCurrencyWord a b c ∧ prevBoundary prev = true ∧ nextBoundary rest2 = true then
        removeWordsFuel fuel (some c) rest2
      else
        a :: removeWordsFuel fuel (some a) rest
    | _ => a :: removeWordsFuel fuel (some a) rest

/-- Strip the currency words `USD`/`EUR` (case-insensitive, at word
boundaries) from a character list. -/
def removeWords (l : List Char) : List Char :=
  removeWordsFuel l.length none l

/-- Last two digits of the second digit group: `nums[1]` if it has at most two
digits, else `nums[1][-2:]`. -/
def lastTwoDigits (l : List Char) : List Char :=
  if l.length ≤ 2 then l else l.drop (l.length - 2)

/-- The multi-digit-group normalization at the top of the `clean_prices` loop:
cents notation (`"50¢50" → "50.50"`) when there are exactly two digit groups
and a cent sign, and the generic `major.minor` fallback when there are two or
more digit groups.  (The middle `elif` of the source is subsumed by the first
branch, exactly as in the code.) -/
def centsNormalize (raw : List Char) : List Char :=
  let nums := digitGroups raw
  if nums.length = 2 ∧ '¢' ∈ raw then
    nums.getD 0 [] ++ '.' :: nums.getD 1 []
  else if nums.length = 2 ∧ (('$' ∈ raw ∨ '€' ∈ raw) ∧ '¢' ∈ raw) then
    nums.getD 0 [] ++ '.' :: nums.getD 1 []
  else if 2 ≤ nums.length then
    nums.getD 0 [] ++ '.' :: lastTwoDigits (nums.getD 1 [])
  else raw

/-- The tail of the `clean_prices` loop body: strip currency symbols, strip
`USD`/`EUR` words, replace commas by periods, drop all characters other than
digits, periods and minus, strip trailing periods, then convert with
`float()` (`None` on failure).  Decidable-descriptor level. -/
def pricePipelineD (raw : List Char) : Option PFloat :=
  let r3 := raw.filter notCurrencySym
  let r4 := removeWords r3
  let r5 := r4.map commaToDot
  let r6 := r5.filter keepNum
  let r7 := rstripDots r6
  if r7 = [] ∨ r7 = ['.'] then none else pyFloatD r7

/-- One cell of `clean_prices`, before the EUR conversion and final rounding:
strip, special-case empty and `nan`/`none`/`null`, normalize multi-group
numerals, then run the character pipeline.  Decidable-descriptor level. -/
def cleanPriceCellD (s : String) : Option PFloat :=
  let raw := stripList s.data
  if raw = [] ∨ raw.map pyToLower = "nan".data ∨ raw.map pyToLower = "none".data ∨
      raw.map pyToLower = "null".data then none
  else pricePipelineD (centsNormalize raw)

/-- One cell of `clean_prices` as a rational, before the EUR conversion and
the final rounding. -/
def cleanPriceCell (s : String) : Option ℚ :=
  (cleanPriceCellD s).map mantissaVal

/-- Scan for a case-insensitive occurrence of `eur` (input already lowered). -/
def hasEurToken : List Char → Bool
  | 'e' :: 'u' :: 'r' :: _ => true
  | _ :: rest => hasEurToken rest
  | [] => false

/-- `s.str.contains(r"€|eur", case=False)` on the stripped cell. -/
def isEur (s : String) : Bool :=
  let raw := stripList s.data
  raw.contains '€' || hasEurToken (raw.map pyToLower)

/-- `clean_prices` for one cell: parse, then multiply EUR-flagged values by
`EUR_TO_USD` and round everything to two decimals (`s.round(2)`); a failed
parse stays null through both steps. -/
def cleanPrice (s : String) : Option ℚ :=
  (cleanPriceCell s).map (fun v => round2 (if isEur s then v * EUR_TO_USD else v))

/-- The price-cleaning algorithm exactly as the spec words it (claim C3):
"Strip every character that is not a digit, comma, period, or minus sign.
Convert comma to period as decimal separator.  Parse as a decimal number;
unparsable values become null."  Decidable-descriptor level. -/
def spec_strip_parseD (s : String) : Option PFloat :=
  pyFloatD ((s.data.filter keepChar).map commaToDot)

/-- The spec's price algorithm (claim C3) as a rational. -/
def spec_strip_parse (s : String) : Option ℚ :=
  (spec_strip_parseD s).map mantissaVal

/-- The spec algorithm amended with the code's trailing-period removal
(`raw.rstrip(".")`); compared against `cleanPriceCellD` on single-digit-group
inputs. -/
def spec_strip_parse_rstripD (s : String) : Option PFloat :=
  pyFloatD (rstripDots ((s.data.filter keepChar).map commaToDot))

/-- The amended spec algorithm as a rational. -/
def spec_strip_parse_rstrip (s : String) : Option ℚ :=
  (spec_strip_parse_rstripD s).map mantissaVal

/-!  Identity clustering (`find_real_user` / `best_buyer` in `analysis.py`). -/

/-- Number of differing field positions between two profiles:
`sum(a != b for a, b in zip(p, rep))`. -/
def diffCount {α : Type} [DecidableEq α] (p q : List α) : ℕ :=
  (p.zip q).countP (fun ab => decide (ab.1 ≠ ab.2))

/-- A cluster of `find_real_user`: representative profile and member list. -/
structure Cluster (α : Type) where
  rep : List α
  items : List (List α)
deriving DecidableEq

/-- One step of the clustering loop: scan the clusters in creation order and
append the profile to the first whose representative differs in at most one
position, else start a new cluster at the end. -/
def insertProfile {α : Type} [DecidableEq α] : List (Cluster α) → List α → List (Cluster α)
  | [], p => [{ rep := p, items := [p] }]
  | cl :: rest, p =>
    if diffCount p cl.rep ≤ 1 then { cl with items := cl.items ++ [p] } :: rest
    else cl :: insertProfile rest p

/-- The streaming clustering over a profile sequence. -/
def buildClusters {α : Type} [DecidableEq α] (ps : List (List α)) : List (Cluster α) :=
  ps.foldl insertProfile []

/-- `find_real_user`: profiles are the identity fields with missing values
coerced to the empty string; the result is the number of clusters. -/
def find_real_user (rows : List (List (Option String))) : ℕ :=
  (buildClusters (rows.map (fun r => r.map (fun v => v.getD "")))).length

/-- A cluster of `best_buyer`: representative profile, set of member
user ids (a Python `set`, modelled as a duplicate-free list in first-insertion
order — only its membership matters, the output is re-sorted), aggregate
spend. -/
structure BCluster (α : Type) where
  rep : List α
  user_ids : List ℤ
  spend : ℚ
deriving DecidableEq

/-- `set.add`: a no-op when the element is already a member. -/
def setAdd (s : List ℤ) (uid : ℤ) : List ℤ :=
  if uid ∈ s then s else s ++ [uid]

/-- One step of the `best_buyer` clustering loop: same first-match rule as
`insertProfile`, but accumulating user ids and spend. -/
def binsert {α : Type} [DecidableEq α] :
    List (BCluster α) → ℤ → List α → ℚ → List (BCluster α)
  | [], uid, p, sp => [{ rep := p, user_ids := [uid], spend := sp }]
  | cl :: rest, uid, p, sp =>
    if diffCount p cl.rep ≤ 1 then
      { cl with user_ids := setAdd cl.user_ids uid, spend := cl.spend + sp } :: rest
    else cl :: binsert rest uid p sp

/-- The `best_buyer` clustering over `(user_id, profile, paid_price)` rows. -/
def bclusters {α : Type} [DecidableEq α] (rows : List (ℤ × List α × ℚ)) : List (BCluster α) :=
  rows.foldl (fun cs r => binsert cs r.1 r.2.1 r.2.2) []

/-- One step of Python's `max(clusters, key=lambda c: c["spend"])`: replace
the current best only on strictly larger spend. -/
def pyMaxStep {α : Type} (acc : Option (BCluster α)) (cl : BCluster α) : Option (BCluster α) :=
  match acc with
  | none => some cl
  | some b => if b.spend < cl.spend then some cl else some b

/-- Python's `max(clusters, key=lambda c: c["spend"])`: scan left to right
with `pyMaxStep` — so the first maximal element wins. -/
def pyMaxBySpend {α : Type} (cs : List (BCluster α)) : Option (BCluster α) :=
  cs.foldl pyMaxStep none

/-- The tail of `best_buyer`: empty list when there are no clusters, else the
sorted user ids of the maximal-spend cluster. -/
def bestBuyerProfiles {α : Type} [DecidableEq α] (rows : List (ℤ × List α × ℚ)) : List ℤ :=
  match pyMaxBySpend (bclusters rows) with
  | none => []
  | some c => List.insertionSort (fun x y => x ≤ y) c.user_ids

/-!  Cells: dynamically typed pandas values. -/

/-- A pandas cell: string, integer, float (as exact rational) or null/NaN. -/
inductive Cell where
  | str : String → Cell
  | int : ℤ → Cell
  | num : ℚ → Cell
  | null : Cell
deriving DecidableEq

/-- `fillna("")`: nulls become the empty string, everything else unchanged. -/
def fillCell : Cell → Cell
  | Cell.null => Cell.str ""
  | c => c

/-- `float()` applied to a cell after `fillna("")` (pandas `astype(float)`):
numbers convert, strings go through `float()` (whitespace tolerated), the
filled-in empty string raises (modelled as `none`). -/
def toFloatFilled : Cell → Option ℚ
  | Cell.num q => some q
  | Cell.int n => some (n : ℚ)
  | Cell.str s => pyFloat (stripList s.data)
  | Cell.null => none

/-- Python `int(s)` on a string: optional sign then decimal digits. -/
def parseIntStr (l : List Char) : Option ℤ :=
  match l with
  | '-' :: rest =>
    if rest ≠ [] ∧ ∀ c ∈ rest, c.isDigit = true then some (-(digitsVal rest : ℤ)) else none
  | _ =>
    if l ≠ [] ∧ ∀ c ∈ l, c.isDigit = true then some ((digitsVal l : ℤ)) else none

/-- Python `int()` applied to a cell after `fillna("")`: integers pass
through, floats truncate toward zero, strings parse strictly, the filled-in
empty string raises (modelled as `none`). -/
def toIntFilled : Cell → Option ℤ
  | Cell.int n => some n
  | Cell.num q => some (Int.tdiv q.num (q.den : ℤ))
  | Cell.str s => parseIntStr (stripList s.data)
  | Cell.null => none

/-!  Author sets (`normalize_author` and friends in `analysis.py`). -/

/-- `split(";")` on a character list (the source replaces `","` by `";"`
first, then splits); `acc` holds the current token in reverse. -/
def splitSemiAux : List Char → List Char → List (List Char)
  | acc, [] => [acc.reverse]
  | acc, c :: rest =>
    if c = ';' then acc.reverse :: splitSemiAux [] rest
    else splitSemiAux (c :: acc) rest

/-- The trimmed nonempty author tokens of an author string:
`[a.strip() for a in s.replace(",", ";").split(";") if a.strip()]`. -/
def authorTokens (s : String) : List String :=
  ((splitSemiAux [] (s.data.map (fun c => if c = ',' then ';' else c))).map
      (fun t => stripList t)).filterMap
    (fun t => if t = [] then none else some (String.mk t))

/-- `normalize_author` on an actual string: the frozenset of trimmed tokens. -/
def normalize_author (s : String) : Finset String :=
  (authorTokens s).toFinset

/-- `normalize_author` on a cell: non-strings map to the empty frozenset
(the `isinstance(author_string, str)` guard). -/
def normalizeAuthorCell : Cell → Finset String
  | Cell.str s => normalize_author s
  | _ => ∅

/-- Generic first-occurrence deduplication (`drop_duplicates` keeps the first
copy of each duplicated row). -/
def firstDedupAux {α : Type} [DecidableEq α] : List α → List α → List α
  | _, [] => []
  | seen, a :: rest =>
    if a ∈ seen then firstDedupAux seen rest
    else a :: firstDedupAux (a :: seen) rest

/-- `drop_duplicates()` keeping first occurrences. -/
def firstDedup {α : Type} [DecidableEq α] (l : List α) : List α :=
  firstDedupAux [] l

/-- Deduplication by a key, keeping the first row for each key
(`drop_duplicates(subset=[key])`). -/
def dedupByKeyAux {α κ : Type} [DecidableEq κ] (key : α → κ) : List κ → List α → List α
  | _, [] => []
  | seen, a :: rest =>
    if key a ∈ seen then dedupByKeyAux key seen rest
    else a :: dedupByKeyAux key (key a :: seen) rest

/-- `drop_duplicates(subset=[key])` keeping first occurrences. -/
def dedupByKey {α κ : Type} [DecidableEq κ] (key : α → κ) (l : List α) : List α :=
  dedupByKeyAux key [] l

/-- The author-bearing slice of a dataframe: which columns exist, and the
`(author, quantity)` cells of each row. -/
structure AuthorDF where
  cols : List String
  rows : List (Cell × ℚ)

/-- `count_unique_author_sets`: 0 when the author column is absent, else the
number of distinct normalized author sets (`Series.nunique`). -/
def count_unique_author_sets (df : AuthorDF) : ℕ :=
  if "author" ∉ df.cols then 0
  else (firstDedup (df.rows.map (fun r => normalizeAuthorCell r.1))).length

/-- First maximal element of a list of `(key, weight)` pairs by weight
(strictly-greater replacement, as in a left-to-right maximum scan). -/
def firstMaxByWeight {κ : Type} (l : List (κ × ℚ)) : Option κ :=
  (l.foldl
      (fun acc p =>
        match acc with
        | none => some p
        | some b => if b.2 < p.2 then some p else some b)
      none).map
    (fun p => p.1)

/-- `most_popular_author_or_set`: `"N/A"` when the author column is absent or
no row has a nonempty author set; else group the valid rows by author set,
sum quantities, and render the maximal set comma-joined and sorted. -/
def most_popular_author_or_set (df : AuthorDF) : String :=
  if "author" ∉ df.cols then "N/A"
  else
    let temp := df.rows.map (fun r => (normalizeAuthorCell r.1, r.2))
    let valid := temp.filter (fun p => decide (p.1 ≠ ∅))
    if valid.length = 0 then "N/A"
    else
      let keys := firstDedup (valid.map (fun p => p.1))
      let sums := keys.map (fun k => (k, ((valid.filter (fun p => decide (p.1 = k))).map (fun p => p.2)).sum))
      match firstMaxByWeight sums with
      | none => "N/A"
      | some best => String.intercalate ", " (best.sort (fun x y => x ≤ y))

/-!  `best_buyer` at dataframe level, including its missing-column behavior. -/

/-- One row of the table handed to `best_buyer` (cells of the seven columns
the function selects; a cell value is only meaningful when its column is
listed in the dataframe's `cols`). -/
structure BuyerRow where
  user_id : Cell := Cell.null
  quantity : Cell := Cell.null
  paid_price : Cell := Cell.null
  name : Cell := Cell.null
  email : Cell := Cell.null
  phone : Cell := Cell.null
  address : Cell := Cell.null
deriving DecidableEq

/-- The table handed to `best_buyer`: present columns plus rows. -/
structure BuyerDF where
  cols : List String
  rows : List BuyerRow

/-- Cell of a named identity column. -/
def buyerField (r : BuyerRow) : String → Cell
  | "name" => r.name
  | "email" => r.email
  | "phone" => r.phone
  | "address" => r.address
  | _ => Cell.null

/-- `best_buyer`: select the available columns, `fillna("")`, convert
`paid_price` with `astype({"paid_price": float})` (raising — `none` — when the
column is absent or a value does not convert), build one
`(int(user_id), identity tuple, float(paid_price))` profile per row (raising
when `user_id` is absent on a nonempty table or does not parse), cluster, and
return the sorted user ids of the maximal-spend cluster. -/
def best_buyer (df : BuyerDF) : Option (List ℤ) :=
  let keep := ["user_id", "quantity", "paid_price", "name", "email", "phone",
    "address"].filter (fun c => decide (c ∈ df.cols))
  if "paid_price" ∉ keep then none
  else if (df.rows.map (fun r => toFloatFilled (fillCell r.paid_price))).any
      (fun o => o.isNone) then none
  else if df.rows ≠ [] ∧ "user_id" ∉ keep then none
  else if (df.rows.map (fun r => toIntFilled (fillCell r.user_id))).any
      (fun o => o.isNone) then none
  else
    let profileCols := ["name", "email", "phone", "address"].filter (fun c => decide (c ∈ keep))
    some (bestBuyerProfiles (df.rows.map (fun r =>
      ((toIntFilled (fillCell r.user_id)).getD 0,
        profileCols.map (fun c => fillCell (buyerField r c)),
        (toFloatFilled (fillCell r.paid_price)).getD 0))))

/-!  Daily revenue and top-5 days (`compute_daily_revenue` / `get_top5_days`). -/

/-- The ascending-by-revenue comparison used to sort the daily table. -/
def revLE (a b : ℕ × ℚ) : Prop := a.2 ≤ b.2

instance : DecidableRel revLE := fun a b => inferInstanceAs (Decidable (a.2 ≤ b.2))

instance : IsTotal (ℕ × ℚ) revLE := ⟨fun a b => le_total a.2 b.2⟩

instance : IsTrans (ℕ × ℚ) revLE := ⟨fun _ _ _ h1 h2 => le_trans h1 h2⟩

/-- `sort_values("revenue", ascending=False)` on the daily table, modelled as
pandas implements descending sorts: a stable ascending sort whose index order
is then reversed — so tied revenues end up in reverse input order. -/
def sortDescByRev (l : List (ℕ × ℚ)) : List (ℕ × ℚ) :=
  (List.insertionSort revLE l).reverse

/-- Digit characters of a natural number, most significant first. -/
def natDigits (n : ℕ) : List Char :=
  Nat.toDigits 10 n

/-- Insert a thousands separator after every three digits, walking the
reversed (least-significant-first) digit list. -/
def group3 : ℕ → List Char → List Char
  | _, [] => []
  | i, c :: rest =>
    if i % 3 = 0 ∧ i ≠ 0 then ',' :: c :: group3 (i + 1) rest
    else c :: group3 (i + 1) rest

/-- The integer part with thousands separators. -/
def groupThousands (n : ℕ) : String :=
  String.mk ((group3 0 (natDigits n).reverse).reverse)

/-- Two-digit rendering of the cents part. -/
def twoDigits (n : ℕ) : String :=
  (if n < 10 then "0" else "") ++ String.mk (natDigits n)

/-- Python's `f"{x:,.2f}"`: round-half-even to two decimals, thousands
separators in the integer part, always two decimals. -/
def fmtRev (q : ℚ) : String :=
  let cents := (rhe (q * 100)).natAbs
  (if q < 0 then "-" else "") ++ groupThousands (cents / 100) ++ "." ++ twoDigits (cents % 100)

/-- Attach ranks `i, i+1, ...` and format revenues, as
`top5.insert(0, "rank", range(1, len(top5) + 1))` does with `rank = 1`. -/
def addRanks : ℕ → List (ℕ × ℚ) → List (ℕ × ℕ × String)
  | _, [] => []
  | i, d :: rest => (i, d.1, fmtRev d.2) :: addRanks (i + 1) rest

/-- `get_top5_days`: sort the daily table descending by revenue, keep the
first five rows, format revenue for display, and rank them 1..k.  Dates are
already day-truncated (`pd.to_datetime(...).dt.date` is the identity on
them) and are modelled as day numbers. -/
def get_top5_days (daily : List (ℕ × ℚ)) : List (ℕ × ℕ × String) :=
  addRanks 1 ((sortDescByRev daily).take 5)

/-!  Typed order rows and the ETL tail (`etl.py`). -/

/-- A typed order row after `ensure_types` (quantity and price parsed to
floats-or-null, timestamp parsed to an instant-or-null, timestamps modelled
as second counts).  `paid_price` and `date` are filled by later pipeline
stages. -/
structure Row where
  user_id : ℤ
  book_id : ℤ
  quantity : Option ℚ
  unit_price : Option ℚ
  timestamp : Option ℕ
  paid_price : Option ℚ := none
  date : Option ℕ := none
deriving DecidableEq

/-- `add_paid_price`: `paid_price = (quantity * unit_price).round(2)`, null
if either factor is null. -/
def add_paid_price (rows : List Row) : List Row :=
  rows.map (fun r =>
    { r with
      paid_price :=
        match r.quantity, r.unit_price with
        | some q, some u => some (round2 (q * u))
        | _, _ => none })

/-- `extract_dates`: `date = timestamp.dt.floor("D")` (year/month/day columns
are not consumed by any analytics and are omitted). -/
def extract_dates (rows : List Row) : List Row :=
  rows.map (fun r => { r with date := r.timestamp.map (fun t => t - t % 86400) })

/-- `remove_dupes_and_bad_rows`: drop exact duplicates (first copy kept),
then rows with null timestamp, then rows with null quantity or unit price. -/
def remove_dupes_and_bad_rows (rows : List Row) : List Row :=
  (((firstDedup rows).filter (fun r => r.timestamp.isSome)).filter
      (fun r => r.quantity.isSome)).filter
    (fun r => r.unit_price.isSome)

/-- The ETL tail on typed rows, in the order of `etl()` /
`process_dataset()`: filtering happens before `add_paid_price`, which happens
before `extract_dates`.  (Loading, column-name cleaning and `ensure_types`
produce the typed rows and are I/O or covered by `cleanPrice`.) -/
def etl (rows : List Row) : List Row :=
  extract_dates (add_paid_price (remove_dupes_and_bad_rows rows))

/-!  The merge and analysis bundle (`pipeline.py` / `analyze`). -/

/-- A user row (`users.csv` after renaming `id` to `id_user`). -/
structure URow where
  id_user : ℤ
  name : Option String
  email : Option String
  phone : Option String
  address : Option String
deriving DecidableEq

/-- A book row (`books.yaml` after renaming `id` to `id_book`). -/
structure BookRow where
  id_book : ℤ
  author : Cell
deriving DecidableEq

/-- A merged row: order fields plus left-joined user identity and book
author (nulls when the join found no match). -/
structure MRow where
  user_id : ℤ
  quantity : Option ℚ
  paid_price : Option ℚ
  date : Option ℕ
  name : Option String
  email : Option String
  phone : Option String
  address : Option String
  author : Cell
deriving DecidableEq

/-- The two left joins of `process_dataset`: orders→users on
`user_id = id_user`, then →books on `book_id = id_book`; unmatched columns
become null.  (Book-side price columns are dropped right after the join and
are not part of `MRow`.) -/
def mergeRows (orders : List Row) (users : List URow) (books : List BookRow) : List MRow :=
  orders.map (fun o =>
    let u := users.find? (fun x => decide (x.id_user = o.user_id))
    let b := books.find? (fun x => decide (x.id_book = o.book_id))
    { user_id := o.user_id
      quantity := o.quantity
      paid_price := o.paid_price
      date := o.date
      name := u.bind (fun x => x.name)
      email := u.bind (fun x => x.email)
      phone := u.bind (fun x => x.phone)
      address := u.bind (fun x => x.address)
      author := match b with | some x => x.author | none => Cell.null })

/-- `compute_daily_revenue`: group by date (null dates dropped, keys sorted
ascending as pandas `groupby` does) and sum `paid_price` (nulls skipped). -/
def compute_daily_revenue (rows : List MRow) : List (ℕ × ℚ) :=
  (List.insertionSort (fun x y => x ≤ y) (firstDedup (rows.filterMap (fun r => r.date)))).map
    (fun d =>
      (d, ((rows.filter (fun r => decide (r.date = some d))).filterMap
          (fun r => r.paid_price)).sum))

/-- The author/quantity slice of the merged table (null quantities contribute
zero to the skip-NA group sums). -/
def adfOf (rows : List MRow) : AuthorDF :=
  { cols := ["author", "quantity"]
    rows := rows.map (fun r => (r.author, r.quantity.getD 0)) }

/-- The seven-column slice of the merged table handed to `best_buyer`. -/
def bdfOf (rows : List MRow) : BuyerDF :=
  { cols := ["user_id", "quantity", "paid_price", "name", "email", "phone", "address"]
    rows := rows.map (fun r =>
      { user_id := Cell.int r.user_id
        quantity := match r.quantity with | some q => Cell.num q | none => Cell.null
        paid_price := match r.paid_price with | some q => Cell.num q | none => Cell.null
        name := match r.name with | some s => Cell.str s | none => Cell.null
        email := match r.email with | some s => Cell.str s | none => Cell.null
        phone := match r.phone with | some s => Cell.str s | none => Cell.null
        address := match r.address with | some s => Cell.str s | none => Cell.null }) }

/-- The identity profiles of the merged table, as `find_real_user` builds
them (`USER_KEY_FIELDS`, all present on a merged table). -/
def userProfilesOf (rows : List MRow) : List (List (Option String)) :=
  rows.map (fun r => [r.name, r.email, r.phone, r.address])

/-- The analysis results bundle returned by `analyze`. -/
structure Analysis where
  daily_revenue : List (ℕ × ℚ)
  top5_days : List (ℕ × ℕ × String)
  unique_users : ℕ
  unique_author_sets : ℕ
  most_popular_author_set : String
  best_buyer_aliases : List ℤ
deriving DecidableEq

/-- `analyze`: the full results bundle over the merged table.  `none` models
an uncaught exception escaping from `best_buyer` (impossible on merged
tables whose `paid_price` is non-null, see the ETL contract). -/
def analyze (rows : List MRow) : Option Analysis :=
  match best_buyer (bdfOf rows) with
  | none => none
  | some bb =>
    some
      { daily_revenue := compute_daily_revenue rows
        top5_days := get_top5_days (compute_daily_revenue rows)
        unique_users := find_real_user (userProfilesOf rows)
        unique_author_sets := count_unique_author_sets (adfOf rows)
        most_popular_author_set := most_popular_author_or_set (adfOf rows)
        best_buyer_aliases := bb }

/-- The per-dataset result bundle of `process_dataset`. -/
structure DatasetResult where
  orders : List Row
  books : List BookRow
  users : List URow
  orders_full : List MRow
  analysis : Option Analysis

/-- `process_dataset`: run the ETL tail on the orders, deduplicate books and
users by key, and only when all three processed tables are nonempty run the
merge and the analysis (with the pipeline's final
`sorted(set(int(x) for x in best_buyer_aliases))` rewrite); otherwise the
merged table stays empty and the results bundle is empty (`none`). -/
def process_dataset (orders : List Row) (users : List URow) (books : List BookRow) :
    DatasetResult :=
  let po := etl orders
  let pu := dedupByKey URow.id_user users
  let pb := dedupByKey BookRow.id_book books
  if po ≠ [] ∧ pu ≠ [] ∧ pb ≠ [] then
    let merged := mergeRows po pu pb
    { orders := po
      books := pb
      users := pu
      orders_full := merged
      analysis := (analyze merged).map (fun a =>
        { a with
          best_buyer_aliases :=
            List.insertionSort (fun x y => x ≤ y) (firstDedup a.best_buyer_aliases) }) }
  else
    { orders := po, books := pb, users := pu, orders_full := [], analysis := none }

/-!  Helper lemmas: clustering. -/

theorem diffCount_self {α : Type} [DecidableEq α] (p : List α) : diffCount p p = 0 := by
  induction p with
  | nil => rfl
  | cons a t ih => simpa [diffCount, List.countP_cons] using ih

theorem insertProfile_invariant {α : Type} [DecidableEq α] (cs : List (Cluster α)) (p : List α)
    (h : ∀ cl ∈ cs, ∀ m ∈ cl.items, diffCount m cl.rep ≤ 1) :
    ∀ cl ∈ insertProfile cs p, ∀ m ∈ cl.items, diffCount m cl.rep ≤ 1 := by
  induction cs with
  | nil =>
    intro cl hcl m hm
    simp only [insertProfile, List.mem_singleton] at hcl
    subst hcl
    simp only [List.mem_singleton] at hm
    subst hm
    simp [diffCount_self]
  | cons c rest ih =>
    intro cl hcl m hm
    by_cases hd : diffCount p c.rep ≤ 1
    · simp only [insertProfile, if_pos hd, List.mem_cons] at hcl
      rcases hcl with hcl | hcl
      · subst hcl
        simp only [List.mem_append, List.mem_singleton] at hm
        rcases hm with hm | hm
        · exact h c (by simp) m hm
        · subst hm; exact hd
      · exact h cl (by simp [hcl]) m hm
    · simp only [insertProfile, if_neg hd, List.mem_cons] at hcl
      rcases hcl with hcl | hcl
      · subst hcl; exact h cl (by simp) m hm
      · exact ih (fun x hx => h x (by simp [hx])) cl hcl m hm

theorem buildClusters_invariant_aux {α : Type} [DecidableEq α] (ps : List (List α)) :
    ∀ cs, (∀ cl ∈ cs, ∀ m ∈ cl.items, diffCount m cl.rep ≤ 1) →
      ∀ cl ∈ ps.foldl insertProfile cs, ∀ m ∈ cl.items, diffCount m cl.rep ≤ 1 := by
  induction ps with
  | nil => intro cs h; simpa using h
  | cons p ps ih =>
    intro cs h
    exact ih (insertProfile cs p) (insertProfile_invariant cs p h)

theorem binsert_rep_map {α : Type} [DecidableEq α] :
    ∀ (bs : List (BCluster α)) (cs : List (Cluster α)) (uid : ℤ) (p : List α) (sp : ℚ),
      bs.map BCluster.rep = cs.map Cluster.rep →
      (binsert bs uid p sp).map BCluster.rep = (insertProfile cs p).map Cluster.rep := by
  intro bs
  induction bs with
  | nil =>
    intro cs uid p sp h
    have hcs : cs = [] := by
      cases cs with
      | nil => rfl
      | cons c ct => simp at h
    subst hcs
    simp [binsert, insertProfile]
  | cons b bt ih =>
    intro cs uid p sp h
    cases cs with
    | nil => simp at h
    | cons c ct =>
      simp only [List.map_cons, List.cons.injEq] at h
      obtain ⟨hrep, htail⟩ := h
      by_cases hd : diffCount p c.rep ≤ 1
      · have hd2 : diffCount p b.rep ≤ 1 := by rw [hrep]; exact hd
        simp [binsert, insertProfile, if_pos hd, if_pos hd2, hrep, htail]
      · have hd2 : ¬ diffCount p b.rep ≤ 1 := by rw [hrep]; exact hd
        simp only [binsert, insertProfile, if_neg hd, if_neg hd2, List.map_cons,
          List.cons.injEq]
        exact ⟨hrep, ih ct uid p sp htail⟩

theorem bclusters_rep_map_aux {α : Type} [DecidableEq α] :
    ∀ (rows : List (ℤ × List α × ℚ)) (bs : List (BCluster α)) (cs : List (Cluster α)),
      bs.map BCluster.rep = cs.map Cluster.rep →
      (rows.foldl (fun acc r => binsert acc r.1 r.2.1 r.2.2) bs).map BCluster.rep =
        ((rows.map (fun r => r.2.1)).foldl insertProfile cs).map Cluster.rep := by
  intro rows
  induction rows with
  | nil => intro bs cs h; simpa using h
  | cons r rows ih =>
    intro bs cs h
    exact ih (binsert bs r.1 r.2.1 r.2.2) (insertProfile cs r.2.1)
      (binsert_rep_map bs cs r.1 r.2.1 r.2.2 h)

/-- C1: the clustering used by `find_real_user` and `best_buyer` assigns each
profile to the first existing cluster (in creation order) whose
representative differs in at most one field position, else opens a new
cluster; hence every member of every cluster differs from its cluster's
representative in at most one field position, and the `best_buyer` loop
creates exactly the same clusters (same representatives, same order) as the
`find_real_user` loop run on the projected profiles. -/
theorem c1_cluster_invariant :
    (∀ (ps : List (List String)), ∀ cl ∈ buildClusters ps, ∀ m ∈ cl.items,
        diffCount m cl.rep ≤ 1) ∧
    (∀ (rows : List (ℤ × List Cell × ℚ)),
        (bclusters rows).map BCluster.rep =
          (buildClusters (rows.map (fun r => r.2.1))).map Cluster.rep) := by
  constructor
  · intro ps
    exact buildClusters_invariant_aux ps [] (by simp)
  · intro rows
    exact bclusters_rep_map_aux rows [] [] (by simp)

/-- C1 witness: on the concrete profile sequence
`[["A","e1"], ["A","e2"], ["B","f1"]]` the first cluster is
`["A","e1"]` with members `["A","e1"], ["A","e2"]`, and the invariant
instantiates to a real bound. -/
theorem c1_cluster_invariant_witness :
    diffCount ["A", "e2"] ["A", "e1"] ≤ 1 :=
  c1_cluster_invariant.1 [["A", "e1"], ["A", "e2"], ["B", "f1"]]
    { rep := ["A", "e1"], items := [["A", "e1"], ["A", "e2"]] } (by decide)
    ["A", "e2"] (by decide)

/-!  Helper lemmas: Python `max` by spend. -/

theorem pyMax_go {α : Type} :
    ∀ (l : List (BCluster α)) (b c : BCluster α),
      l.foldl pyMaxStep (some b) = some c →
      b.spend ≤ c.spend ∧ (∀ x ∈ l, x.spend ≤ c.spend) ∧
        (c = b ∨ (b.spend < c.spend ∧
          ∃ pre post, l = pre ++ c :: post ∧ ∀ x ∈ pre, x.spend < c.spend)) := by
  intro l
  induction l with
  | nil =>
    intro b c h
    simp only [List.foldl_nil, Option.some.injEq] at h
    subst h
    exact ⟨le_refl _, by simp, Or.inl rfl⟩
  | cons a t ih =>
    intro b c h
    simp only [List.foldl_cons] at h
    by_cases hlt : b.spend < a.spend
    · rw [show pyMaxStep (some b) a = some a from by simp [pyMaxStep, if_pos hlt]] at h
      obtain ⟨hble, hbound, hcase⟩ := ih a c h
      refine ⟨le_trans (le_of_lt hlt) hble, ?_, ?_⟩
      · intro x hx
        rcases List.mem_cons.mp hx with hx | hx
        · subst hx; exact hble
        · exact hbound x hx
      · rcases hcase with hcb | ⟨hstrict, pre, post, hsplit, hpre⟩
        · subst hcb
          exact Or.inr ⟨hlt, [], t, rfl, by simp⟩
        · exact Or.inr ⟨lt_trans hlt hstrict, a :: pre, post, by simp [hsplit],
            fun x hx => by
              rcases List.mem_cons.mp hx with hx | hx
              · subst hx; exact hstrict
              · exact hpre x hx⟩
    · rw [show pyMaxStep (some b) a = some b from by simp [pyMaxStep, if_neg hlt]] at h
      obtain ⟨hble, hbound, hcase⟩ := ih b c h
      have hab : a.spend ≤ b.spend := le_of_not_lt hlt
      refine ⟨hble, ?_, ?_⟩
      · intro x hx
        rcases List.mem_cons.mp hx with hx | hx
        · subst hx; exact le_trans hab hble
        · exact hbound x hx
      · rcases hcase with hcb | ⟨hstrict, pre, post, hsplit, hpre⟩
        · exact Or.inl hcb
        · exact Or.inr ⟨hstrict, a :: pre, post, by simp [hsplit],
            fun x hx => by
              rcases List.mem_cons.mp hx with hx | hx
              · subst hx; exact lt_of_le_of_lt hab hstrict
              · exact hpre x hx⟩

theorem pyMax_first_max {α : Type} (cs : List (BCluster α)) (c : BCluster α)
    (h : pyMaxBySpend cs = some c) :
    ∃ pre post, cs = pre ++ c :: post ∧
      (∀ x ∈ pre, x.spend < c.spend) ∧ (∀ x ∈ post, x.spend ≤ c.spend) := by
  cases cs with
  | nil => simp [pyMaxBySpend] at h
  | cons a t =>
    have h2 : t.foldl pyMaxStep (some a) = some c := by
      simpa [pyMaxBySpend, List.foldl_cons, pyMaxStep] using h
    obtain ⟨hble, hbound, hcase⟩ := pyMax_go t a c h2
    rcases hcase with hca | ⟨hstrict, pre, post, hsplit, hpre⟩
    · subst hca
      refine ⟨[], t, by simp, by simp, ?_⟩
      intro x hx
      exact hbound x hx
    · refine ⟨a :: pre, post, by simp [hsplit], ?_, ?_⟩
      · intro x hx
        rcases List.mem_cons.mp hx with hx | hx
        · subst hx; exact hstrict
        · exact hpre x hx
      · intro x hx
        exact hbound x (by rw [hsplit]; exact List.mem_append_right _ (by simp [hx]))

/-- C2: `best_buyer` clusters one `(user_id, identity fields, paid_price)`
profile per order row, aggregates member user-id sets and summed spend,
selects the maximal-spend cluster with first-max tie-breaking (every earlier
cluster spends strictly less, every later one at most as much), and returns
that cluster's user ids sorted ascending; concretely, two orders sharing an
email but differing in name with spends 100 and 50 land in one cluster with
spend 150 and both user ids are returned. -/
theorem c2_best_buyer_first_max :
    (∀ (rows : List (ℤ × List Cell × ℚ)) (c : BCluster Cell),
        pyMaxBySpend (bclusters rows) = some c →
        bestBuyerProfiles rows = List.insertionSort (fun x y => x ≤ y) c.user_ids ∧
          ∃ pre post, bclusters rows = pre ++ c :: post ∧
            (∀ x ∈ pre, x.spend < c.spend) ∧ (∀ x ∈ post, x.spend ≤ c.spend)) ∧
    bclusters [((1 : ℤ), [Cell.str "Alice", Cell.str "e@x"], (100 : ℚ)),
        ((2 : ℤ), [Cell.str "Bob", Cell.str "e@x"], (50 : ℚ))] =
      [{ rep := [Cell.str "Alice", Cell.str "e@x"], user_ids := [1, 2], spend := 150 }] ∧
    bestBuyerProfiles [((1 : ℤ), [Cell.str "Alice", Cell.str "e@x"], (100 : ℚ)),
        ((2 : ℤ), [Cell.str "Bob", Cell.str "e@x"], (50 : ℚ))] = [1, 2] := by
  have hd : diffCount [Cell.str "Bob", Cell.str "e@x"] [Cell.str "Alice", Cell.str "e@x"] ≤ 1 := by
    decide
  have hb : bclusters [((1 : ℤ), [Cell.str "Alice", Cell.str "e@x"], (100 : ℚ)),
      ((2 : ℤ), [Cell.str "Bob", Cell.str "e@x"], (50 : ℚ))] =
      [{ rep := [Cell.str "Alice", Cell.str "e@x"], user_ids := [1, 2], spend := 150 }] := by
    simp only [bclusters, List.foldl_cons, List.foldl_nil, binsert, if_pos hd]
    simp [setAdd]
    norm_num
  refine ⟨?_, hb, ?_⟩
  · intro rows c h
    refine ⟨?_, pyMax_first_max _ _ h⟩
    simp [bestBuyerProfiles, h]
  · simp [bestBuyerProfiles, hb, pyMaxBySpend, pyMaxStep, List.insertionSort,
      List.orderedInsert]

/-- C2 witness: the first-max decomposition instantiated on the two-order
scenario (the single cluster carries user ids 1 and 2 and spend 150). -/
theorem c2_best_buyer_first_max_witness :
    bestBuyerProfiles [((1 : ℤ), [Cell.str "Alice", Cell.str "e@x"], (100 : ℚ)),
        ((2 : ℤ), [Cell.str "Bob", Cell.str "e@x"], (50 : ℚ))] =
      List.insertionSort (fun x y => x ≤ y) [(1 : ℤ), 2] ∧
    ∃ pre post,
      bclusters [((1 : ℤ), [Cell.str "Alice", Cell.str "e@x"], (100 : ℚ)),
          ((2 : ℤ), [Cell.str "Bob", Cell.str "e@x"], (50 : ℚ))] =
        pre ++ (BCluster.mk [Cell.str "Alice", Cell.str "e@x"] [1, 2] (150 : ℚ)) :: post :=
  have h := c2_best_buyer_first_max.1
    [((1 : ℤ), [Cell.str "Alice", Cell.str "e@x"], (100 : ℚ)),
      ((2 : ℤ), [Cell.str "Bob", Cell.str "e@x"], (50 : ℚ))]
    (BCluster.mk [Cell.str "Alice", Cell.str "e@x"] [1, 2] (150 : ℚ))
    (by rw [c2_best_buyer_first_max.2.1]; rfl)
  ⟨h.1, h.2.imp (fun pre hp => hp.imp (fun post hq => hq.1))⟩

/-- C8: `normalize_author` depends only on the set of trimmed tokens (comma
and semicolon interchangeable, empty tokens dropped), so any two author
strings with the same trimmed names in any order normalize to the identical
set; `"Tolkien; Lewis"` and `"Lewis, Tolkien"` normalize identically and
count as one unique author set; and every non-string cell maps to the empty
set. -/
theorem c8_author_sets :
    (∀ s1 s2 : String, (∀ a, a ∈ authorTokens s1 ↔ a ∈ authorTokens s2) →
        normalize_author s1 = normalize_author s2) ∧
    normalize_author "Tolkien; Lewis" = normalize_author "Lewis, Tolkien" ∧
    count_unique_author_sets
      { cols := ["author", "quantity"],
        rows := [(Cell.str "Tolkien; Lewis", (1 : ℚ)), (Cell.str "Lewis, Tolkien", (1 : ℚ))] } =
      1 ∧
    (∀ c : Cell, (∀ s, c ≠ Cell.str s) → normalizeAuthorCell c = ∅) := by
  refine ⟨?_, ?_, ?_, ?_⟩
  · intro s1 s2 h
    ext a
    simp only [normalize_author, List.mem_toFinset]
    exact h a
  · decide
  · decide
  · intro c h
    cases c with
    | str s => exact absurd rfl (h s)
    | int n => rfl
    | num q => rfl
    | null => rfl

/-- C8 witness: the token-set equivalence applied to two concrete reordered,
re-delimited author strings, and the non-string default applied to an
integer cell. -/
theorem c8_author_sets_witness :
    normalize_author "Tolkien; Lewis" = normalize_author " Lewis ,Tolkien" ∧
    normalizeAuthorCell (Cell.int 5) = ∅ := by
  constructor
  · apply c8_author_sets.1
    intro a
    have h1 : authorTokens "Tolkien; Lewis" = ["Tolkien", "Lewis"] := by decide
    have h2 : authorTokens " Lewis ,Tolkien" = ["Lewis", "Tolkien"] := by decide
    rw [h1, h2]
    simp only [List.mem_cons, List.not_mem_nil, or_false]
    tauto
  · exact c8_author_sets.2.2.2 (Cell.int 5) (fun s h => by cases h)

/-- C5: in the ETL pipeline the duplicate/null-row filtering runs before the
`paid_price` derivation, so every row surviving `etl` has non-null quantity,
unit price and timestamp, and its `paid_price` equals
`round(quantity * unit_price, 2)` (in particular non-null). -/
theorem c5_filter_before_paid :
    ∀ (rows : List Row), ∀ r ∈ etl rows, ∃ q u,
      r.quantity = some q ∧ r.unit_price = some u ∧ r.timestamp.isSome = true ∧
        r.paid_price = some (round2 (q * u)) := by
  intro rows r hr
  simp only [etl, extract_dates, List.mem_map] at hr
  obtain ⟨r1, hr1, rfl⟩ := hr
  simp only [add_paid_price, List.mem_map] at hr1
  obtain ⟨r0, hr0, rfl⟩ := hr1
  simp only [remove_dupes_and_bad_rows, List.mem_filter] at hr0
  obtain ⟨⟨⟨hded, ht⟩, hq⟩, hu⟩ := hr0
  obtain ⟨q, hq2⟩ := Option.isSome_iff_exists.mp hq
  obtain ⟨u, hu2⟩ := Option.isSome_iff_exists.mp hu
  exact ⟨q, u, by simp [hq2], by simp [hu2], by simp [ht], by simp [hq2, hu2]⟩

/-- C5 witness: the contract instantiated on a concrete one-row table. -/
theorem c5_filter_before_paid_witness :
    ∃ q u,
      (Row.mk 1 1 (some 2) (some 3) (some 5) (some (round2 (2 * 3))) (some 0)).quantity =
        some q ∧
      (Row.mk 1 1 (some 2) (some 3) (some 5) (some (round2 (2 * 3))) (some 0)).unit_price =
        some u ∧
      (Row.mk 1 1 (some 2) (some 3) (some 5) (some (round2 (2 * 3))) (some 0)).timestamp.isSome =
        true ∧
      (Row.mk 1 1 (some 2) (some 3) (some 5) (some (round2 (2 * 3))) (some 0)).paid_price =
        some (round2 (q * u)) :=
  c5_filter_before_paid [Row.mk 1 1 (some 2) (some 3) (some 5) none none]
    (Row.mk 1 1 (some 2) (some 3) (some 5) (some (round2 (2 * 3))) (some 0))
    (List.mem_singleton.mpr rfl)

/-- C6: whenever any of the three (processed) input tables is empty — orders,
users or books — `process_dataset` leaves the merged table empty and returns
an empty analysis bundle; the join branch is never entered. -/
theorem c6_empty_inputs :
    ∀ (orders : List Row) (users : List URow) (books : List BookRow),
      orders = [] ∨ users = [] ∨ books = [] →
      (process_dataset orders users books).orders_full = [] ∧
        (process_dataset orders users books).analysis = none := by
  intro o u b h
  have hgate : ¬ (etl o ≠ [] ∧ dedupByKey URow.id_user u ≠ [] ∧
      dedupByKey BookRow.id_book b ≠ []) := by
    rcases h with h | h | h <;> subst h
    · intro hc; exact hc.1 rfl
    · intro hc; exact hc.2.1 rfl
    · intro hc; exact hc.2.2 rfl
  simp [process_dataset, if_neg hgate]

/-- C6 witness: empty orders with a nonempty user and book table yield an
empty merged table and an empty bundle. -/
theorem c6_empty_inputs_witness :
    (process_dataset [] [URow.mk 1 (some "A") none none none]
        [BookRow.mk 1 (Cell.str "T")]).orders_full = [] ∧
    (process_dataset [] [URow.mk 1 (some "A") none none none]
        [BookRow.mk 1 (Cell.str "T")]).analysis = none :=
  c6_empty_inputs [] [URow.mk 1 (some "A") none none none]
    [BookRow.mk 1 (Cell.str "T")] (Or.inl rfl)

/-- C9: with a missing `author` column, `count_unique_author_sets` returns 0
and `most_popular_author_or_set` returns `"N/A"`; but `best_buyer` on a table
missing its `paid_price` column does **not** return `[]` — the unconditional
`astype({"paid_price": float})` raises a `KeyError` (modelled as `none`), even
on an empty table; `best_buyer` only returns `[]` when the table has no rows
and `paid_price` is present. -/
theorem c9_missing_column_eval :
    count_unique_author_sets
      { cols := ["quantity"], rows := [(Cell.str "Tolkien", (1 : ℚ))] } = 0 ∧
    most_popular_author_or_set
      { cols := ["quantity"], rows := [(Cell.str "Tolkien", (1 : ℚ))] } = "N/A" ∧
    best_buyer
      { cols := ["name", "email"],
        rows := [{ name := Cell.str "Alice", email := Cell.str "e@x" }] } = none ∧
    best_buyer { cols := ["name", "email"], rows := [] } = none ∧
    best_buyer { cols := ["user_id", "paid_price"], rows := [] } = some [] := by
  refine ⟨by decide, by decide, by decide, by decide, by decide⟩

/-!  Helper lemmas: top-5 ranking. -/

theorem addRanks_map_rank :
    ∀ (l : List (ℕ × ℚ)) (i : ℕ), (addRanks i l).map (fun r => r.1) = List.range' i l.length := by
  intro l
  induction l with
  | nil => intro i; simp [addRanks]
  | cons d rest ih =>
    intro i
    simp [addRanks, List.range'_succ, ih]

theorem addRanks_map_date :
    ∀ (l : List (ℕ × ℚ)) (i : ℕ),
      (addRanks i l).map (fun r => r.2.1) = l.map (fun d => d.1) := by
  intro l
  induction l with
  | nil => intro i; simp [addRanks]
  | cons d rest ih => intro i; simp [addRanks, ih]

theorem addRanks_map_fmt :
    ∀ (l : List (ℕ × ℚ)) (i : ℕ),
      (addRanks i l).map (fun r => r.2.2) = l.map (fun d => fmtRev d.2) := by
  intro l
  induction l with
  | nil => intro i; simp [addRanks]
  | cons d rest ih => intro i; simp [addRanks, ih]

theorem sortDescByRev_perm (l : List (ℕ × ℚ)) : (sortDescByRev l).Perm l :=
  (List.reverse_perm _).trans (List.perm_insertionSort revLE l)

theorem sortDescByRev_sorted (l : List (ℕ × ℚ)) :
    List.Pairwise (fun a b => b.2 ≤ a.2) (sortDescByRev l) := by
  have h : List.Pairwise revLE (List.insertionSort revLE l) :=
    List.sorted_insertionSort revLE l
  have h2 := List.pairwise_reverse.mpr h
  exact h2.imp (fun hab => hab)

/-- C7 corrected: `get_top5_days` ranks `1..k` (with `k = min 5 n`) the first
five rows of the revenue-descending sort of the daily table, carrying the
dates of that sort and display-formatted revenues; the descending sort is a
permutation of the input, pairwise non-increasing in revenue — but it is the
reverse of a stable ascending sort, so among tied revenues the **later**
input row gets the better rank (on date-ascending daily tables: the later
date). -/
theorem c7_top5_amended :
    ∀ daily : List (ℕ × ℚ),
      (get_top5_days daily).map (fun r => r.1) = List.range' 1 (min 5 daily.length) ∧
      (get_top5_days daily).map (fun r => r.2.1) =
        ((sortDescByRev daily).take 5).map (fun d => d.1) ∧
      (get_top5_days daily).map (fun r => r.2.2) =
        ((sortDescByRev daily).take 5).map (fun d => fmtRev d.2) ∧
      (sortDescByRev daily).Perm daily ∧
      List.Pairwise (fun a b => b.2 ≤ a.2) (sortDescByRev daily) ∧
      (∀ (d1 d2 : ℕ) (r : ℚ),
        get_top5_days [(d1, r), (d2, r)] = [(1, d2, fmtRev r), (2, d1, fmtRev r)]) := by
  intro daily
  refine ⟨?_, addRanks_map_date _ _, addRanks_map_fmt _ _, sortDescByRev_perm daily,
    sortDescByRev_sorted daily, ?_⟩
  · rw [get_top5_days, addRanks_map_rank, List.length_take,
      (sortDescByRev_perm daily).length_eq]
  · intro d1 d2 r
    simp [get_top5_days, sortDescByRev, List.insertionSort, List.orderedInsert, revLE,
      addRanks]

/-- C7 counterexample: on the two-day table `[(1, 10), (2, 10)]` with tied
revenue, rank 1 goes to day 2 — the *later* input row — contradicting the
claim's first-encountered stability (which predicts rank 1 for day 1). -/
theorem c7_top5_tie_cex :
    get_top5_days [(1, (10 : ℚ)), (2, 10)] = [(1, 2, "10.00"), (2, 1, "10.00")] ∧
    ¬ get_top5_days [(1, (10 : ℚ)), (2, 10)] = [(1, 1, "10.00"), (2, 2, "10.00")] := by
  have hr : rhe ((10 : ℚ) * 100) = 1000 := by norm_num [rhe]
  have hneg : ¬ ((10 : ℚ) < 0) := by norm_num
  have hfmt : fmtRev 10 = "10.00" := by
    rw [fmtRev, hr, if_neg hneg]
    decide
  have h : get_top5_days [(1, (10 : ℚ)), (2, 10)] = [(1, 2, "10.00"), (2, 1, "10.00")] := by
    rw [show ([(1, 2, "10.00"), (2, 1, "10.00")] : List (ℕ × ℕ × String)) =
        [(1, 2, fmtRev 10), (2, 1, fmtRev 10)] from by rw [hfmt]]
    simp [get_top5_days, sortDescByRev, List.insertionSort, List.orderedInsert, revLE,
      addRanks]
  refine ⟨h, ?_⟩
  rw [h]
  decide

/-- C4: for every price string whose EUR marker is recognized (a Euro sign or
the substring `eur`, case-insensitive, on the stripped cell) and whose
numeric part parses, the cleaned value is the parsed numeric multiplied by
the fixed `EUR_TO_USD = 1.2`, rounded to two decimals; without the marker the
value is not converted, only rounded. -/
theorem c4_eur_conversion :
    ∀ (s : String) (v : ℚ), cleanPriceCell s = some v →
      (isEur s = true → cleanPrice s = some (round2 (v * EUR_TO_USD))) ∧
      (isEur s = false → cleanPrice s = some (round2 v)) := by
  intro s v h
  obtain ⟨p, hp, hv⟩ : ∃ p, cleanPriceCellD s = some p ∧ mantissaVal p = v := by
    simpa [cleanPriceCell, Option.map_eq_some'] using h
  constructor <;> intro he <;> simp [cleanPrice, hp, he, hv] <;> exact ⟨v, h, rfl⟩

/-- C4 witness: `"5 eur"` parses to 5 and cleans to `round2 (5 * 1.2) = 6`. -/
theorem c4_eur_conversion_witness :
    cleanPrice "5 eur" = some (round2 (5 * EUR_TO_USD)) := by
  have hD : cleanPriceCellD "5 eur" = some ((false, ['5'], []) : PFloat) := by decide
  have h5 : digitsVal ['5'] = 5 := by decide
  have hv : mantissaVal ((false, ['5'], []) : PFloat) = 5 := by
    simp [mantissaVal, h5, show digitsVal ([] : List Char) = 0 from rfl]
  have hcell : cleanPriceCell "5 eur" = some 5 := by
    simp [cleanPriceCell, hD, hv]
  exact (c4_eur_conversion "5 eur" 5 hcell).1 (by decide)

/-!  Helper lemmas: character filters, stripping, currency-word removal. -/

theorem filter_dropWhile_eq {p q : Char → Bool} (hpq : ∀ c, p c = true → q c = false) :
    ∀ l : List Char, (l.dropWhile p).filter q = l.filter q := by
  intro l
  induction l with
  | nil => rfl
  | cons a t ih =>
    by_cases hp : p a = true
    · rw [List.dropWhile_cons_of_pos hp, ih, List.filter_cons_of_neg (by simp [hpq a hp])]
    · rw [List.dropWhile_cons_of_neg hp]

theorem filter_reverse_eq (q : Char → Bool) :
    ∀ l : List Char, l.reverse.filter q = (l.filter q).reverse := by
  intro l
  induction l with
  | nil => rfl
  | cons a t ih =>
    by_cases hq : q a = true
    · simp [List.filter_append, ih, hq]
    · simp [List.filter_append, ih, hq]

theorem filter_stripList {q : Char → Bool} (hq : ∀ c, pyIsSpace c = true → q c = false)
    (l : List Char) : (stripList l).filter q = l.filter q := by
  rw [stripList, filter_reverse_eq, filter_dropWhile_eq hq, filter_reverse_eq,
    List.reverse_reverse, filter_dropWhile_eq hq]

theorem keepChar_of_space (c : Char) (h : pyIsSpace c = true) : keepChar c = false := by
  simp only [pyIsSpace, decide_eq_true_eq] at h
  rcases h with h | h | h | h | h | h <;> subst h <;> decide

theorem char_le_toNat {a b : Char} : a ≤ b ↔ a.toNat ≤ b.toNat := by
  rw [Char.le_def, UInt32.le_def, BitVec.le_def]
  exact Iff.rfl

theorem isDigit_toNat (c : Char) (h : c.isDigit = true) : 48 ≤ c.toNat ∧ c.toNat ≤ 57 := by
  simp only [Char.isDigit, Bool.and_eq_true, decide_eq_true_eq] at h
  obtain ⟨h1, h2⟩ := h
  rw [ge_iff_le, UInt32.le_def, BitVec.le_def] at h1
  rw [UInt32.le_def, BitVec.le_def] at h2
  exact ⟨h1, h2⟩

theorem pyToLower_fix_of_keepChar (c : Char) (h : keepChar c = true) : pyToLower c = c := by
  rw [pyToLower, if_neg]
  intro hAZ
  have hA : 65 ≤ c.toNat := by
    have := char_le_toNat.mp hAZ.1
    simpa using this
  simp only [keepChar, decide_eq_true_eq] at h
  rcases h with h | h | h | h
  · have := (isDigit_toNat c h).2
    omega
  · subst h; exact absurd hA (by decide)
  · subst h; exact absurd hA (by decide)
  · subst h; exact absurd hA (by decide)

theorem keepChar_false_of_lower_letter (c x : Char) (hlx : pyToLower c = x)
    (hx : x = 'n' ∨ x = 'a' ∨ x = 'e' ∨ x = 'o' ∨ x = 'u' ∨ x = 'l') :
    keepChar c = false := by
  by_contra hk
  have hk2 : keepChar c = true := by
    cases hkc : keepChar c
    · exact absurd hkc hk
    · rfl
  rw [pyToLower_fix_of_keepChar c hk2] at hlx
  subst hlx
  rcases hx with h | h | h | h | h | h <;> subst h <;> exact absurd hk2 (by decide)

theorem filter_keepChar_eq_nil (l w : List Char) (hmap : l.map pyToLower = w)
    (hw : ∀ x ∈ w, x = 'n' ∨ x = 'a' ∨ x = 'e' ∨ x = 'o' ∨ x = 'u' ∨ x = 'l') :
    l.filter keepChar = [] := by
  rw [List.filter_eq_nil_iff]
  intro c hc
  have hmem : pyToLower c ∈ w := by
    rw [← hmap]
    exact List.mem_map_of_mem pyToLower hc
  simp [keepChar_false_of_lower_letter c (pyToLower c) rfl (hw _ hmem)]

theorem keepNum_commaToDot (c : Char) : keepNum (commaToDot c) = keepChar c := by
  by_cases hc : c = ','
  · subst hc; decide
  · simp only [commaToDot, if_neg hc, keepNum, keepChar]
    rw [decide_eq_decide]
    constructor
    · intro h; tauto
    · intro h; rcases h with h | h | h | h
      · tauto
      · exact absurd h hc
      · tauto
      · tauto

theorem map_commaToDot_filter (l : List Char) :
    (l.map commaToDot).filter keepNum = (l.filter keepChar).map commaToDot := by
  induction l with
  | nil => rfl
  | cons a t ih =>
    simp only [List.map_cons]
    by_cases hk : keepChar a = true
    · rw [List.filter_cons_of_pos (by rw [keepNum_commaToDot]; exact hk),
        List.filter_cons_of_pos hk, List.map_cons, ih]
    · rw [List.filter_cons_of_neg (by rw [keepNum_commaToDot]; simpa using hk),
        List.filter_cons_of_neg (by simpa using hk), ih]

theorem filter_map_filter_sym (l : List Char) :
    ((l.filter notCurrencySym).map commaToDot).filter keepNum =
      (l.map commaToDot).filter keepNum := by
  induction l with
  | nil => rfl
  | cons a t ih =>
    by_cases hp : notCurrencySym a = true
    · rw [List.filter_cons_of_pos hp]
      simp only [List.map_cons]
      by_cases hq : keepNum (commaToDot a) = true
      · rw [List.filter_cons_of_pos hq, List.filter_cons_of_pos hq, ih]
      · rw [List.filter_cons_of_neg (by simpa using hq),
          List.filter_cons_of_neg (by simpa using hq), ih]
    · rw [List.filter_cons_of_neg (by simpa using hp)]
      have hp2 : a = '€' ∨ a = '$' := by
        by_contra hno
        push_neg at hno
        exact hp (by simp [notCurrencySym, hno.1, hno.2])
      have ha : keepNum (commaToDot a) = false := by
        rcases hp2 with h | h <;> subst h <;> decide
      rw [List.map_cons, List.filter_cons_of_neg (by simp [ha]), ih]

theorem isAlpha_of_toNat (c : Char) (h1 : 65 ≤ c.toNat) (h2 : c.toNat ≤ 90) :
    c.isAlpha = true := by
  simp only [Char.isAlpha, Char.isUpper, Bool.or_eq_true, Bool.and_eq_true, decide_eq_true_eq]
  left
  constructor
  · rw [ge_iff_le, UInt32.le_def, BitVec.le_def]
    exact h1
  · rw [UInt32.le_def, BitVec.le_def]
    exact h2

theorem isAlpha_false_of_toNat (c : Char) (hlt : c.toNat < 65) : c.isAlpha = false := by
  have hconv : c.val.toBitVec.toNat = c.toNat := rfl
  have h1 : decide (c.val ≥ 65) = false := by
    apply decide_eq_false
    rw [ge_iff_le, UInt32.le_def, BitVec.le_def, hconv,
      show ((65 : UInt32)).toBitVec.toNat = 65 from rfl]
    omega
  have h2 : decide (c.val ≥ 97) = false := by
    apply decide_eq_false
    rw [ge_iff_le, UInt32.le_def, BitVec.le_def, hconv,
      show ((97 : UInt32)).toBitVec.toNat = 97 from rfl]
    omega
  simp [Char.isAlpha, Char.isUpper, Char.isLower, h1, h2]

theorem isAlpha_false_of_digit (c : Char) (h : c.isDigit = true) : c.isAlpha = false :=
  isAlpha_false_of_toNat c (by have := (isDigit_toNat c h).2; omega)

theorem isAlpha_of_lower_letter (c x : Char) (hlx : pyToLower c = x)
    (hx : x = 'u' ∨ x = 's' ∨ x = 'd' ∨ x = 'e' ∨ x = 'r') : c.isAlpha = true := by
  rw [pyToLower] at hlx
  by_cases hAZ : 'A' ≤ c ∧ c ≤ 'Z'
  · exact isAlpha_of_toNat c (le_trans (by decide) (char_le_toNat.mp hAZ.1))
      (le_trans (char_le_toNat.mp hAZ.2) (by decide))
  · rw [if_neg hAZ] at hlx
    subst hlx
    rcases hx with h | h | h | h | h <;> rw [h] <;> decide

theorem isCurrencyWord_alpha (a b c : Char) (h : isCurrencyWord a b c = true) :
    a.isAlpha = true ∧ b.isAlpha = true ∧ c.isAlpha = true := by
  simp only [isCurrencyWord, decide_eq_true_eq] at h
  rcases h with ⟨h1, h2, h3⟩ | ⟨h1, h2, h3⟩
  · exact ⟨isAlpha_of_lower_letter _ _ h1 (Or.inl rfl),
      isAlpha_of_lower_letter _ _ h2 (Or.inr (Or.inl rfl)),
      isAlpha_of_lower_letter _ _ h3 (Or.inr (Or.inr (Or.inl rfl)))⟩
  · exact ⟨isAlpha_of_lower_letter _ _ h1 (Or.inr (Or.inr (Or.inr (Or.inl rfl)))),
      isAlpha_of_lower_letter _ _ h2 (Or.inl rfl),
      isAlpha_of_lower_letter _ _ h3 (Or.inr (Or.inr (Or.inr (Or.inr rfl))))⟩

theorem filter_cons_congr {q : Char → Bool} (x : Char) {L1 L2 : List Char}
    (h : L1.filter q = L2.filter q) : (x :: L1).filter q = (x :: L2).filter q := by
  by_cases hq : q x = true
  · rw [List.filter_cons_of_pos hq, List.filter_cons_of_pos hq, h]
  · rw [List.filter_cons_of_neg (by simpa using hq), List.filter_cons_of_neg (by simpa using hq),
      h]

theorem removeWordsFuel_filter {q : Char → Bool}
    (hq : ∀ c : Char, c.isAlpha = true → q (commaToDot c) = false) :
    ∀ (fuel : ℕ) (prev : Option Char) (l : List Char),
      ((removeWordsFuel fuel prev l).map commaToDot).filter q = (l.map commaToDot).filter q := by
  intro fuel
  induction fuel with
  | zero => intro prev l; cases l <;> rfl
  | succ n ih =>
    intro prev l
    cases l with
    | nil => rfl
    | cons a rest =>
      cases rest with
      | nil => simp [removeWordsFuel]
      | cons b rest2 =>
        cases rest2 with
        | nil =>
          simp only [removeWordsFuel, List.map_cons]
          exact filter_cons_congr _ (ih (some a) [b])
        | cons c rest3 =>
          simp only [removeWordsFuel]
          by_cases hcond : isCurrencyWord a b c ∧ prevBoundary prev = true ∧
              nextBoundary rest3 = true
          · rw [if_pos hcond]
            obtain ⟨ha, hb, hc⟩ := isCurrencyWord_alpha a b c hcond.1
            rw [ih (some c) rest3]
            rw [List.map_cons, List.map_cons, List.map_cons,
              List.filter_cons_of_neg (by simp [hq a ha]),
              List.filter_cons_of_neg (by simp [hq b hb]),
              List.filter_cons_of_neg (by simp [hq c hc])]
          · rw [if_neg hcond, List.map_cons, List.map_cons]
            exact filter_cons_congr _ (ih (some a) (b :: c :: rest3))

theorem removeWordsFuel_id :
    ∀ (fuel : ℕ) (prev : Option Char) (l : List Char),
      (∀ c ∈ l, c.isAlpha = false) → removeWordsFuel fuel prev l = l := by
  intro fuel
  induction fuel with
  | zero => intro prev l hl; cases l <;> rfl
  | succ n ih =>
    intro prev l hl
    cases l with
    | nil => rfl
    | cons a rest =>
      cases rest with
      | nil => simp [removeWordsFuel]
      | cons b rest2 =>
        cases rest2 with
        | nil =>
          simp only [removeWordsFuel]
          rw [ih (some a) [b] (fun c hc => hl c (List.mem_cons_of_mem a hc))]
        | cons c rest3 =>
          simp only [removeWordsFuel]
          rw [if_neg, ih (some a) (b :: c :: rest3)
            (fun x hx => hl x (List.mem_cons_of_mem a hx))]
          intro hcond
          have := (isCurrencyWord_alpha a b c hcond.1).1
          rw [hl a (by simp)] at this
          exact Bool.false_ne_true this

theorem digitGroupsAux_sound :
    ∀ (l acc : List Char), (∀ c ∈ acc, c.isDigit = true) →
      ∀ g ∈ digitGroupsAux acc l, g ≠ [] ∧ ∀ c ∈ g, c.isDigit = true := by
  intro l
  induction l with
  | nil =>
    intro acc hacc g hg
    simp only [digitGroupsAux] at hg
    by_cases ha : acc = []
    · rw [if_pos ha] at hg
      simp at hg
    · rw [if_neg ha] at hg
      simp only [List.mem_singleton] at hg
      subst hg
      exact ⟨by simpa using ha, fun c hc => hacc c (List.mem_reverse.mp hc)⟩
  | cons x rest ih =>
    intro acc hacc g hg
    simp only [digitGroupsAux] at hg
    by_cases hx : x.isDigit = true
    · rw [if_pos hx] at hg
      refine ih (x :: acc) ?_ g hg
      intro c hc
      rcases List.mem_cons.mp hc with h | h
      · subst h; exact hx
      · exact hacc c h
    · rw [if_neg hx] at hg
      by_cases ha : acc = []
      · rw [if_pos ha] at hg
        exact ih [] (by simp) g hg
      · rw [if_neg ha] at hg
        rcases List.mem_cons.mp hg with h | h
        · subst h
          exact ⟨by simpa using ha, fun c hc => hacc c (List.mem_reverse.mp hc)⟩
        · exact ih [] (by simp) g h

theorem digitGroupsAux_nil_of_no_digit :
    ∀ l : List Char, (∀ c ∈ l, c.isDigit = false) → digitGroupsAux [] l = [] := by
  intro l
  induction l with
  | nil => intro h2; rfl
  | cons x rest ih =>
    intro hl
    simp [digitGroupsAux, hl x (by simp),
      ih (fun c hc => hl c (List.mem_cons_of_mem x hc))]

theorem takeWhile_append_all (p : Char → Bool) :
    ∀ (l1 l2 : List Char), (∀ c ∈ l1, p c = true) →
      (l1 ++ l2).takeWhile p = l1 ++ l2.takeWhile p := by
  intro l1
  induction l1 with
  | nil => intro l2 h; simp
  | cons a t ih =>
    intro l2 h
    rw [List.cons_append, List.takeWhile_cons_of_pos (h a (by simp)), ih l2
      (fun c hc => h c (List.mem_cons_of_mem a hc)), List.cons_append]

theorem dropWhile_append_all (p : Char → Bool) :
    ∀ (l1 l2 : List Char), (∀ c ∈ l1, p c = true) →
      (l1 ++ l2).dropWhile p = l2.dropWhile p := by
  intro l1
  induction l1 with
  | nil => intro l2 h; simp
  | cons a t ih =>
    intro l2 h
    rw [List.cons_append, List.dropWhile_cons_of_pos (h a (by simp))]
    exact ih l2 (fun c hc => h c (List.mem_cons_of_mem a hc))

theorem map_fix (f : Char → Char) :
    ∀ l : List Char, (∀ c ∈ l, f c = c) → l.map f = l := by
  intro l
  induction l with
  | nil => intro h; rfl
  | cons a t ih =>
    intro h
    rw [List.map_cons, h a (by simp), ih (fun c hc => h c (List.mem_cons_of_mem a hc))]

theorem count_dot_of_digits (g : List Char) (hd : ∀ c ∈ g, c.isDigit = true) :
    g.count '.' = 0 :=
  List.count_eq_zero.mpr (fun hmem => absurd (hd '.' hmem) (by decide))

theorem notSym_of_digit_or_dot (c : Char) (h : c.isDigit = true ∨ c = '.') :
    notCurrencySym c = true := by
  rcases h with h | h
  · simp only [notCurrencySym, decide_eq_true_eq]
    rintro (hh | hh) <;> subst hh <;> exact absurd h (by decide)
  · subst h; decide

theorem keepNum_of_digit_or_dot (c : Char) (h : c.isDigit = true ∨ c = '.') :
    keepNum c = true := by
  rcases h with h | h
  · simp [keepNum, h]
  · subst h; decide

theorem alpha_false_of_digit_or_dot (c : Char) (h : c.isDigit = true ∨ c = '.') :
    c.isAlpha = false := by
  rcases h with h | h
  · exact isAlpha_false_of_digit c h
  · subst h; decide

theorem commaToDot_fix_of_digit_or_dot (c : Char) (h : c.isDigit = true ∨ c = '.') :
    commaToDot c = c := by
  rw [commaToDot, if_neg]
  intro hc
  subst hc
  rcases h with h | h
  · exact absurd h (by decide)
  · exact absurd h (by decide)

theorem keepNum_false_of_alpha (c : Char) (h : c.isAlpha = true) :
    keepNum (commaToDot c) = false := by
  have hne : ¬ c = ',' := by
    intro hh; subst hh; exact absurd h (by decide)
  rw [commaToDot, if_neg hne]
  simp only [keepNum]
  apply decide_eq_false
  rintro (hd | hh | hh)
  · rw [isAlpha_false_of_digit c hd] at h
    exact Bool.false_ne_true h
  · subst hh; exact absurd h (by decide)
  · subst hh; exact absurd h (by decide)

theorem isDigit_false_of_not_keepChar (c : Char) (h : keepChar c = false) :
    c.isDigit = false := by
  cases hh : c.isDigit
  · rfl
  · rw [show keepChar c = true from by simp [keepChar, hh]] at h
    exact absurd h (by simp)

theorem rstripDots_eq_self {l : List Char} {d : Char} {t : List Char}
    (hrev : l.reverse = d :: t) (hd : ¬ d = '.') : rstripDots l = l := by
  rw [rstripDots, hrev, List.dropWhile_cons_of_neg (by simpa using hd), ← hrev,
    List.reverse_reverse]

theorem rstripDots_digits (g1 g2 : List Char) (h2 : g2 ≠ [])
    (hd2 : ∀ c ∈ g2, c.isDigit = true) :
    rstripDots (g1 ++ '.' :: g2) = g1 ++ '.' :: g2 := by
  obtain ⟨d, t, hrev⟩ : ∃ d t, g2.reverse = d :: t := by
    cases hg : g2.reverse with
    | nil => exact absurd (List.reverse_eq_nil_iff.mp hg) h2
    | cons d t => exact ⟨d, t, rfl⟩
  have hdmem : d ∈ g2 := by
    rw [← List.mem_reverse, hrev]; simp
  have hdd : ¬ d = '.' := by
    intro h; subst h; exact absurd (hd2 '.' hdmem) (by decide)
  refine rstripDots_eq_self (t := t ++ '.' :: g1.reverse) ?_ hdd
  rw [List.reverse_append, List.reverse_cons, hrev]
  simp

theorem pyFloatD_digits (g1 g2 : List Char) (h1 : g1 ≠ [])
    (hd1 : ∀ c ∈ g1, c.isDigit = true) (hd2 : ∀ c ∈ g2, c.isDigit = true) :
    pyFloatD (g1 ++ '.' :: g2) = some ((false, g1, g2) : PFloat) := by
  obtain ⟨x, xs, rfl⟩ : ∃ x xs, g1 = x :: xs := by
    cases g1 with
    | nil => exact absurd rfl h1
    | cons x xs => exact ⟨x, xs, rfl⟩
  have hx : x.isDigit = true := hd1 x (by simp)
  have hxne : ¬ x = '-' := by
    intro h; subst h; exact absurd hx (by decide)
  have hcond : (∀ c ∈ (x :: xs) ++ '.' :: g2, c.isDigit = true ∨ c = '.') ∧
      ((x :: xs) ++ '.' :: g2).count '.' ≤ 1 ∧
      (∃ c ∈ (x :: xs) ++ '.' :: g2, c.isDigit = true) := by
    refine ⟨?_, ?_, ⟨x, by simp, hx⟩⟩
    · intro c hc
      rcases List.mem_append.mp hc with h | h
      · exact Or.inl (hd1 c h)
      · rcases List.mem_cons.mp h with h | h
        · exact Or.inr h
        · exact Or.inl (hd2 c h)
    · rw [List.count_append, count_dot_of_digits _ hd1]
      rw [List.count_cons_self, count_dot_of_digits _ hd2]
  have htake : ((x :: xs) ++ '.' :: g2).takeWhile Char.isDigit = x :: xs := by
    rw [takeWhile_append_all _ _ _ hd1, List.takeWhile_cons_of_neg (by decide),
      List.append_nil]
  have hdrop : ((x :: xs) ++ '.' :: g2).dropWhile Char.isDigit = '.' :: g2 := by
    rw [dropWhile_append_all _ _ _ hd1, List.dropWhile_cons_of_neg (by decide)]
  rw [List.cons_append]
  simp only [pyFloatD, if_neg hxne]
  rw [parseMantissa, if_pos (by rw [← List.cons_append]; exact hcond)]
  rw [← List.cons_append, htake, hdrop]
  simp

theorem pricePipelineD_digits (g1 g2 : List Char) (h1 : g1 ≠ [])
    (hd1 : ∀ c ∈ g1, c.isDigit = true) (h2 : g2 ≠ [])
    (hd2 : ∀ c ∈ g2, c.isDigit = true) :
    pricePipelineD (g1 ++ '.' :: g2) = some ((false, g1, g2) : PFloat) := by
  have hdod : ∀ c ∈ g1 ++ '.' :: g2, c.isDigit = true ∨ c = '.' := by
    intro c hc
    rcases List.mem_append.mp hc with h | h
    · exact Or.inl (hd1 c h)
    · rcases List.mem_cons.mp h with h | h
      · exact Or.inr h
      · exact Or.inl (hd2 c h)
  have hfil1 : (g1 ++ '.' :: g2).filter notCurrencySym = g1 ++ '.' :: g2 :=
    List.filter_eq_self.mpr (fun c hc => notSym_of_digit_or_dot c (hdod c hc))
  have hrw : removeWords (g1 ++ '.' :: g2) = g1 ++ '.' :: g2 :=
    removeWordsFuel_id _ none _ (fun c hc => alpha_false_of_digit_or_dot c (hdod c hc))
  have hmap : (g1 ++ '.' :: g2).map commaToDot = g1 ++ '.' :: g2 :=
    map_fix _ _ (fun c hc => commaToDot_fix_of_digit_or_dot c (hdod c hc))
  have hfil2 : (g1 ++ '.' :: g2).filter keepNum = g1 ++ '.' :: g2 :=
    List.filter_eq_self.mpr (fun c hc => keepNum_of_digit_or_dot c (hdod c hc))
  have hstrip := rstripDots_digits g1 g2 h2 hd2
  obtain ⟨x, xs, hg1⟩ : ∃ x xs, g1 = x :: xs := by
    cases g1 with
    | nil => exact absurd rfl h1
    | cons x xs => exact ⟨x, xs, rfl⟩
  have hne : ¬ (g1 ++ '.' :: g2 = [] ∨ g1 ++ '.' :: g2 = ['.']) := by
    subst hg1
    rintro (h | h)
    · simp at h
    · rw [List.cons_append] at h
      have := (List.cons.inj h).1
      subst this
      exact absurd (hd1 '.' (by simp)) (by decide)
  simp only [pricePipelineD, hfil1, hrw, hmap, hfil2, hstrip]
  rw [if_neg hne]
  exact pyFloatD_digits g1 g2 h1 hd1 hd2

theorem digitGroups_nil_of_lower (l w : List Char) (hmap : l.map pyToLower = w)
    (hw : ∀ x ∈ w, x = 'n' ∨ x = 'a' ∨ x = 'e' ∨ x = 'o' ∨ x = 'u' ∨ x = 'l') :
    digitGroups l = [] := by
  have hfil := filter_keepChar_eq_nil l w hmap hw
  have hnd : ∀ c ∈ l, c.isDigit = false := by
    intro c hc
    apply isDigit_false_of_not_keepChar
    cases hh : keepChar c
    · rfl
    · have hmem : c ∈ l.filter keepChar := List.mem_filter.mpr ⟨hc, hh⟩
      rw [hfil] at hmem
      simp at hmem
  exact digitGroupsAux_nil_of_no_digit l hnd

/-- C3 corrected: restricted to cells with at most one digit group, the
per-cell parse of `clean_prices` agrees with the spec's algorithm amended by
the code's trailing-period removal (strip every character that is not a
digit, comma, period or minus; turn commas into periods; drop trailing
periods; parse — null when unparsable); and a null parse stays null through
the currency conversion and rounding, never becoming zero or an exception. -/
theorem c3_strip_parse_amended :
    ∀ s : String,
      ((digitGroups (stripList s.data)).length ≤ 1 →
        cleanPriceCellD s = spec_strip_parse_rstripD s) ∧
      (cleanPriceCell s = none → cleanPrice s = none) := by
  intro s
  constructor
  · intro hlen
    by_cases hsp : stripList s.data = [] ∨
        (stripList s.data).map pyToLower = "nan".data ∨
        (stripList s.data).map pyToLower = "none".data ∨
        (stripList s.data).map pyToLower = "null".data
    · have hstrip : (stripList s.data).filter keepChar = s.data.filter keepChar :=
        filter_stripList keepChar_of_space s.data
      have hnil : s.data.filter keepChar = [] := by
        rcases hsp with h | h | h | h
        · rw [← hstrip, h]; rfl
        · rw [← hstrip]; exact filter_keepChar_eq_nil _ _ h (by decide)
        · rw [← hstrip]; exact filter_keepChar_eq_nil _ _ h (by decide)
        · rw [← hstrip]; exact filter_keepChar_eq_nil _ _ h (by decide)
      simp only [cleanPriceCellD]
      rw [if_pos hsp, spec_strip_parse_rstripD, hnil]
      rfl
    · simp only [cleanPriceCellD]
      rw [if_neg hsp]
      have hA : ¬ ((digitGroups (stripList s.data)).length = 2 ∧ '¢' ∈ stripList s.data) :=
        fun hc => absurd hc.1 (by omega)
      have hB : ¬ ((digitGroups (stripList s.data)).length = 2 ∧
          (('$' ∈ stripList s.data ∨ '€' ∈ stripList s.data) ∧ '¢' ∈ stripList s.data)) :=
        fun hc => absurd hc.1 (by omega)
      have hC : ¬ 2 ≤ (digitGroups (stripList s.data)).length := by omega
      have hcn : centsNormalize (stripList s.data) = stripList s.data := by
        simp only [centsNormalize]
        rw [if_neg hA, if_neg hB, if_neg hC]
      rw [hcn]
      have hkey : ((removeWords ((stripList s.data).filter notCurrencySym)).map
            commaToDot).filter keepNum = (s.data.filter keepChar).map commaToDot := by
        rw [show removeWords ((stripList s.data).filter notCurrencySym) =
            removeWordsFuel ((stripList s.data).filter notCurrencySym).length none
              ((stripList s.data).filter notCurrencySym) from rfl]
        rw [removeWordsFuel_filter keepNum_false_of_alpha _ none _]
        rw [filter_map_filter_sym, map_commaToDot_filter,
          filter_stripList keepChar_of_space]
      simp only [pricePipelineD]
      rw [hkey, spec_strip_parse_rstripD]
      by_cases ht : rstripDots ((s.data.filter keepChar).map commaToDot) = [] ∨
          rstripDots ((s.data.filter keepChar).map commaToDot) = ['.']
      · rw [if_pos ht]
        rcases ht with h | h <;> rw [h] <;> rfl
      · rw [if_neg ht]
  · intro h
    simp [cleanPrice, h]

/-- C3 counterexample: on `"1,234.56"` the spec's strip-and-parse algorithm
yields null (two periods survive), but `clean_prices` produces 1.34 through
the multi-digit-group heuristic — the code does not follow the claimed
algorithm on strings with several digit groups. -/
theorem c3_strip_parse_cex :
    cleanPrice "1,234.56" = some (134 / 100) ∧ spec_strip_parse "1,234.56" = none := by
  have hD : cleanPriceCellD "1,234.56" = some ((false, ['1'], ['3', '4']) : PFloat) := by
    decide
  have hv : mantissaVal ((false, ['1'], ['3', '4']) : PFloat) = 134 / 100 := by
    simp only [mantissaVal, show digitsVal ['3', '4'] = 34 from by decide,
      show digitsVal ['1'] = 1 from by decide]
    norm_num
  have hcell : cleanPriceCell "1,234.56" = some (134 / 100) := by
    simp [cleanPriceCell, hD, hv]
  constructor
  · simp only [cleanPrice, hcell, Option.map_some',
      show isEur "1,234.56" = false from by decide, Bool.false_eq_true, if_false]
    norm_num [round2, rhe]
  · rw [spec_strip_parse, show spec_strip_parseD "1,234.56" = none from by decide]
    rfl

/-- C3 witness: the amended algorithm and the null-propagation instantiated
on `"abc"` (no digit groups, unparsable, null all the way through). -/
theorem c3_strip_parse_amended_witness :
    cleanPriceCellD "abc" = spec_strip_parse_rstripD "abc" ∧ cleanPrice "abc" = none :=
  ⟨(c3_strip_parse_amended "abc").1 (by decide),
   (c3_strip_parse_amended "abc").2
     (by simp [cleanPriceCell, show cleanPriceCellD "abc" = none from by decide])⟩

/-- C10 corrected: for a price cell whose stripped text has two or more
digit groups, the pre-conversion parse of `clean_prices` is `major.minor`
(both groups kept whole) when there are exactly two groups and a cent sign,
and `major.(last two digits of minor)` in every other case (no cent sign, or
three or more groups); the final cleaned value is then subject to the EUR
conversion (claim C4) and the rounding to two decimals, so an EUR-marked
cent string is multiplied by 1.2 rather than returned as `major.minor`. -/
theorem c10_cent_amended :
    ∀ (s : String) (g1 g2 : List Char) (rest : List (List Char)),
      digitGroups (stripList s.data) = g1 :: g2 :: rest →
      (rest = [] → '¢' ∈ stripList s.data →
        cleanPriceCellD s = some ((false, g1, g2) : PFloat) ∧
        cleanPriceCell s =
          some ((digitsVal g1 : ℚ) + (digitsVal g2 : ℚ) / 10 ^ g2.length)) ∧
      (rest ≠ [] ∨ '¢' ∉ stripList s.data →
        cleanPriceCellD s = some ((false, g1, lastTwoDigits g2) : PFloat) ∧
        cleanPriceCell s =
          some ((digitsVal g1 : ℚ) +
            (digitsVal (lastTwoDigits g2) : ℚ) / 10 ^ (lastTwoDigits g2).length)) := by
  intro s g1 g2 rest h
  have hm1 : g1 ∈ digitGroups (stripList s.data) := by rw [h]; simp
  have hm2 : g2 ∈ digitGroups (stripList s.data) := by rw [h]; simp
  obtain ⟨h1ne, hd1⟩ := digitGroupsAux_sound (stripList s.data) [] (by simp) g1 hm1
  obtain ⟨h2ne, hd2⟩ := digitGroupsAux_sound (stripList s.data) [] (by simp) g2 hm2
  have hns : ¬ (stripList s.data = [] ∨
      (stripList s.data).map pyToLower = "nan".data ∨
      (stripList s.data).map pyToLower = "none".data ∨
      (stripList s.data).map pyToLower = "null".data) := by
    rintro (h0 | h0 | h0 | h0)
    · rw [h0] at h
      simp [digitGroups, digitGroupsAux] at h
    · have h2 : digitGroups (stripList s.data) = [] :=
        digitGroups_nil_of_lower _ _ h0 (by decide)
      rw [h2] at h; simp at h
    · have h2 : digitGroups (stripList s.data) = [] :=
        digitGroups_nil_of_lower _ _ h0 (by decide)
      rw [h2] at h; simp at h
    · have h2 : digitGroups (stripList s.data) = [] :=
        digitGroups_nil_of_lower _ _ h0 (by decide)
      rw [h2] at h; simp at h
  constructor
  · intro hrest hcent
    subst hrest
    have hcn : centsNormalize (stripList s.data) = g1 ++ '.' :: g2 := by
      simp only [centsNormalize, h]
      rw [if_pos ⟨by simp, hcent⟩]
      simp
    have hD : cleanPriceCellD s = some ((false, g1, g2) : PFloat) := by
      simp only [cleanPriceCellD]
      rw [if_neg hns, hcn]
      exact pricePipelineD_digits g1 g2 h1ne hd1 h2ne hd2
    refine ⟨hD, ?_⟩
    simp [cleanPriceCell, hD, mantissaVal]
  · intro hgen
    have hA : ¬ ((g1 :: g2 :: rest).length = 2 ∧ '¢' ∈ stripList s.data) := by
      rcases hgen with hrest | hcent
      · intro hc
        have hlen := hc.1
        simp only [List.length_cons] at hlen
        exact hrest (List.length_eq_zero.mp (by omega))
      · exact fun hc => hcent hc.2
    have hB : ¬ ((g1 :: g2 :: rest).length = 2 ∧
        (('$' ∈ stripList s.data ∨ '€' ∈ stripList s.data) ∧
          '¢' ∈ stripList s.data)) := by
      rcases hgen with hrest | hcent
      · intro hc
        have hlen := hc.1
        simp only [List.length_cons] at hlen
        exact hrest (List.length_eq_zero.mp (by omega))
      · exact fun hc => hcent hc.2.2
    have hlt2ne : lastTwoDigits g2 ≠ [] := by
      rw [lastTwoDigits]
      by_cases hl : g2.length ≤ 2
      · rw [if_pos hl]; exact h2ne
      · rw [if_neg hl]
        intro hc
        have hlen := congrArg List.length hc
        rw [List.length_drop] at hlen
        simp only [List.length_nil] at hlen
        omega
    have hlt2d : ∀ c ∈ lastTwoDigits g2, c.isDigit = true := by
      intro c hc
      rw [lastTwoDigits] at hc
      by_cases hl : g2.length ≤ 2
      · rw [if_pos hl] at hc; exact hd2 c hc
      · rw [if_neg hl] at hc; exact hd2 c (List.drop_subset _ _ hc)
    have hcn : centsNormalize (stripList s.data) = g1 ++ '.' :: lastTwoDigits g2 := by
      simp only [centsNormalize, h]
      rw [if_neg hA, if_neg hB, if_pos (by simp)]
      simp
    have hD : cleanPriceCellD s = some ((false, g1, lastTwoDigits g2) : PFloat) := by
      simp only [cleanPriceCellD]
      rw [if_neg hns, hcn]
      exact pricePipelineD_digits g1 _ h1ne hd1 hlt2ne hlt2d
    refine ⟨hD, ?_⟩
    simp [cleanPriceCell, hD, mantissaVal]

/-- C10 counterexample: `"50¢50eur"` has exactly two digit groups and a cent
sign, but the cleaned value is `round2(50.50 * 1.2) = 60.6`, not the
`major.minor = 50.50` the claim asserts for every such string. -/
theorem c10_cent_eur_cex :
    cleanPrice "50¢50eur" = some (303 / 5) ∧
    ¬ cleanPrice "50¢50eur" = some (101 / 2) := by
  have hD : cleanPriceCellD "50¢50eur" = some ((false, ['5', '0'], ['5', '0']) : PFloat) := by
    decide
  have hv : mantissaVal ((false, ['5', '0'], ['5', '0']) : PFloat) = 101 / 2 := by
    simp only [mantissaVal, show digitsVal ['5', '0'] = 50 from by decide]
    norm_num
  have hcell : cleanPriceCell "50¢50eur" = some (101 / 2) := by
    simp [cleanPriceCell, hD, hv]
  have hc : cleanPrice "50¢50eur" = some (round2 (101 / 2 * EUR_TO_USD)) := by
    simp only [cleanPrice, hcell, Option.map_some',
      show isEur "50¢50eur" = true from by decide, if_true]
  have hr : round2 ((101 : ℚ) / 2 * EUR_TO_USD) = 303 / 5 := by
    norm_num [round2, rhe, EUR_TO_USD]
  rw [hc, hr]
  refine ⟨rfl, ?_⟩
  intro hcon
  have h2 := Option.some.inj hcon
  norm_num at h2

/-- C10 witness: the branches instantiated on `"50¢50"` (exactly two groups
with a cent sign: both kept), `"12 3456"` (two groups, no cent sign: last two
digits of the second group), and `"1,234.56"` (three groups, no cent sign:
the generic branch also applies). -/
theorem c10_cent_amended_witness :
    cleanPriceCellD "50¢50" = some ((false, ['5', '0'], ['5', '0']) : PFloat) ∧
    cleanPriceCellD "12 3456" = some ((false, ['1', '2'], ['5', '6']) : PFloat) ∧
    cleanPriceCellD "1,234.56" = some ((false, ['1'], ['3', '4']) : PFloat) :=
  ⟨((c10_cent_amended "50¢50" ['5', '0'] ['5', '0'] [] (by decide)).1 rfl (by decide)).1,
   ((c10_cent_amended "12 3456" ['1', '2'] ['3', '4', '5', '6'] [] (by decide)).2
     (Or.inr (by decide))).1,
   ((c10_cent_amended "1,234.56" ['1'] ['2', '3', '4'] [['5', '6']] (by decide)).2
     (Or.inl (by simp))).1⟩
